import Mathlib

/-!
Verification of the IdentifyTheFile core (`itf-core`): a shallow embedding of
the pattern data model, the file processor and the point calculator, together
with theorems settling the specified properties.

Modelling conventions:
- a file byte is `Fin 256`; a buffer (header chunk) is a `List (Fin 256)`;
- Rust `String`s hold only ASCII here, so they are modelled as `List Char`;
- `f32` arithmetic is idealised as real arithmetic (`ℝ`); `x.round() as usize`
  becomes `(round x).toNat` (Rust saturates negative values to zero, and for
  non-negative values Rust's round-half-away-from-zero agrees with `round`);
- `HashSet` becomes `Finset`; rayon's parallel folds are order-independent and
  are modelled by their sequential equivalents;
- `sort_unstable_by_key` leaves the relative order of equal keys unspecified;
  it is modelled by a deterministic insertion sort on the same key.
-/

/-- The byte alphabet of a file buffer. -/
abbrev Byte := Fin 256

/-- ASCII strings are modelled as lists of characters. -/
abbrev Str := List Char

/- Constants from `itf-core/src/file_point_calculator.rs`. -/

/-- Maximum number of points awarded for entropy matching. -/
noncomputable def MAX_ENTROPY_POINTS : ℝ := 15

/-- Exponent scaling the total file count into the confidence factor. -/
noncomputable def CONFIDENCE_SCALE_FACTOR : ℝ := 1 / 3

/-- Points awarded for a file extension match. -/
noncomputable def FILE_EXTENSION_POINTS : ℝ := 5

/- Constants from `itf-core/src/file_processor.rs`. -/

/-- Minimum length of a string that will be retained. -/
def MIN_STRING_LENGTH : ℕ := 5

/-- Maximum length of a string that will be retained. -/
def MAX_STRING_LENGTH : ℕ := 64

/-- Minimum length of a byte sequence. -/
def MIN_BYTE_SEQUENCE_LENGTH : ℕ := 1

/-- Maximum length of a byte sequence. -/
def MAX_BYTE_SEQUENCE_LENGTH : ℕ := 16

/-- The permitted readable-character subset, exactly as enumerated by the repo
(`ASCII_CHARACTER_STRING`). -/
def ASCII_CHARACTER_STRING : Str :=
  " !#$+,-./0123456789<=>?ABCDEFGHIJKLMNOPQRSTUVWXYZ_abcdefghijklmnopqrstuvwxyz".toList

/-- Embedding of `get_ascii_readable_characters_set`: a byte is readable iff its
character is in the permitted subset (the Rust code builds a 256-entry boolean
table from `ASCII_CHARACTER_STRING`). -/
def ascii_readable_characters_set (b : Byte) : Bool :=
  ASCII_CHARACTER_STRING.any fun c => c.toNat = b.val

/-- Embedding of `generate_uppercase_map`: byte `i` maps to
`(i as u8 as char).to_ascii_uppercase()`. -/
def ascii_uppercase_map (b : Byte) : Char :=
  if 97 ≤ b.val ∧ b.val ≤ 122 then Char.ofNat (b.val - 32) else Char.ofNat b.val

/-- Embedding of `count_byte_frequencies`: the buffer folds into a fresh
256-bin histogram (the rayon chunked fold is associative, so it equals the
sequential fold), and the caller's previous counts are added back in.  The
Rust function mutates `frequencies`; here the updated map is returned. -/
def count_byte_frequencies (data : List Byte) (frequencies : Byte → ℕ) : Byte → ℕ :=
  let accumulator := data.foldl (fun acc b => Function.update acc b (acc b + 1)) (fun _ => 0)
  fun i => accumulator i + frequencies i

/-- Embedding of `utils::calculate_shannon_entropy`: Shannon entropy in bits of
a 256-bin histogram, skipping empty bins. -/
noncomputable def calculate_shannon_entropy (frequencies : Byte → ℕ) : ℝ :=
  let total_bytes : ℝ := (∑ i, frequencies i : ℕ)
  ∑ i, if frequencies i = 0 then 0
    else -((frequencies i / total_bytes) * Real.logb 2 (frequencies i / total_bytes))

/-- Loop of `extract_file_strings`: walk the buffer keeping a token buffer of
uppercased readable characters; flush on reaching `MAX_STRING_LENGTH`, and on a
non-readable byte flush if the token has at least `MIN_STRING_LENGTH`
characters.  A final non-empty token of sufficient length is flushed too. -/
def extract_strings_go : List Byte → Str → Finset Str → Finset Str
  | [], string_buffer, strings =>
      if MIN_STRING_LENGTH ≤ string_buffer.length then insert string_buffer strings else strings
  | b :: rest, string_buffer, strings =>
      if ascii_readable_characters_set b then
        let buffer' := string_buffer ++ [ascii_uppercase_map b]
        if buffer'.length = MAX_STRING_LENGTH then
          extract_strings_go rest [] (insert buffer' strings)
        else
          extract_strings_go rest buffer' strings
      else
        if MIN_STRING_LENGTH ≤ string_buffer.length then
          extract_strings_go rest [] (insert string_buffer strings)
        else
          extract_strings_go rest [] strings

/-- Embedding of `extract_file_strings`. -/
def extract_file_strings (bytes : List Byte) : Finset Str :=
  extract_strings_go bytes [] ∅

/-- Embedding of `find_slice`: position of the first occurrence of `needle`
inside `haystack`, if any. -/
def find_slice (haystack needle : Str) : Option ℕ :=
  if needle = [] then some 0
  else if haystack.length < needle.length then none
  else (List.range (haystack.length - needle.length + 1)).find?
    fun i => (haystack.drop i).take needle.length = needle

/-- Embedding of `has_common_elements`: do the two strings share a character? -/
def has_common_elements (seq_1 seq_2 : Str) : Bool :=
  seq_2.any fun b => seq_1.contains b

/-- Sliding windows of length `size` over a string, in order of occurrence
(Rust's `slice::windows`; empty when `size` exceeds the length). -/
def windows (l : Str) (size : ℕ) : List Str :=
  if size ≤ l.length then
    (List.range (l.length - size + 1)).map fun i => (l.drop i).take size
  else []

/-- Embedding of `largest_common_substring`: identical strings are returned
whole, otherwise windows of `str_1` are enumerated from the longest down to
`MIN_STRING_LENGTH` and the first one occurring in `str_2` is returned. -/
def largest_common_substring (str_1 str_2 : Str) : Option Str :=
  if str_1 = str_2 then some str_1
  else if !has_common_elements str_1 str_2 then none
  else
    ((List.range' MIN_STRING_LENGTH (str_1.length + 1 - MIN_STRING_LENGTH)).reverse).findSome?
      fun size => (windows str_1 size).find? fun seq => (find_slice str_2 seq).isSome

/-- Rayon's `max_by_key(|s| s.len())`: the maximum-length element, the latest
one winning ties. -/
def max_by_string_length (l : List Str) : Option Str :=
  l.foldl
    (fun acc s =>
      match acc with
      | none => some s
      | some cur => if cur.length ≤ s.length then some s else some cur)
    none

/-- One pass of the sieve: rebuild the working set by replacing each common
string with the best largest-common-substring it has against the set. -/
def common_string_sieve_step (set : List Str) (common_strings : List Str) : List Str :=
  common_strings.filterMap fun common_string =>
    max_by_string_length (set.filterMap fun string => largest_common_substring string common_string)

/-- The sieve's main loop over the remaining sets, bailing out with an empty
result as soon as the working set becomes empty. -/
def common_string_sieve_loop : List (List Str) → List Str → List Str
  | [], common_strings => common_strings
  | set :: rest, common_strings =>
      let new_common_strings := common_string_sieve_step set common_strings
      if new_common_strings = [] then []
      else common_string_sieve_loop rest new_common_strings

/-- Insertion of an element into a list sorted by `le` (used to model
`sort_unstable_by_key`; the tie order of the unstable sort is unspecified, this
is one deterministic realisation). -/
def insert_sorted_by {α : Type} (le : α → α → Bool) (x : α) : List α → List α
  | [] => [x]
  | y :: ys => if le x y then x :: y :: ys else y :: insert_sorted_by le x ys

/-- Insertion sort by a boolean comparison. -/
def sort_by {α : Type} (le : α → α → Bool) (l : List α) : List α :=
  l.foldr (insert_sorted_by le) []

/-- Embedding of `common_string_sieve`: sort the sets by size ascending, seed
the working set with the largest, sieve it against every other set, and prune
proper substrings from the result. -/
def common_string_sieve (sets : List (List Str)) : List Str :=
  if sets = [] then []
  else
    let sorted := sort_by (fun a b => a.length ≤ b.length) sets
    let common_strings := common_string_sieve_loop sorted.dropLast (sorted.getLastD [])
    common_strings.filter fun item =>
      !(common_strings.any fun other => decide (other ≠ item) && (find_slice other item).isSome)

/-- Loop of `extract_matching_sequences` over the zipped byte pairs.  `i` is
the current index, `subsequence_start` is `none` when the Rust code holds the
`usize::MAX` sentinel, `buffer` is the in-progress run. -/
def extract_matching_go (start_at : ℕ) :
    List (Byte × Byte) → ℕ → Option ℕ → List Byte → List (ℕ × List Byte) →
    List (ℕ × List Byte)
  | [], _, subsequence_start, buffer, out =>
      if buffer.isEmpty then out
      else out ++ [(start_at + subsequence_start.getD 0, buffer)]
  | (a, b) :: rest, i, subsequence_start, buffer, out =>
      if a = b then
        let s := subsequence_start.getD i
        let buffer' := buffer ++ [a]
        if buffer'.length = MAX_BYTE_SEQUENCE_LENGTH then
          extract_matching_go start_at rest (i + 1) (some (i + 1)) []
            (out ++ [(start_at + s, buffer')])
        else
          extract_matching_go start_at rest (i + 1) (some s) buffer' out
      else
        match subsequence_start with
        | some s => extract_matching_go start_at rest (i + 1) none []
            (out ++ [(start_at + s, buffer)])
        | none => extract_matching_go start_at rest (i + 1) none buffer out

/-- Embedding of `extract_matching_sequences`: common positional runs of the
two buffers, split at `MAX_BYTE_SEQUENCE_LENGTH`, offsets shifted by
`start_at`. -/
def extract_matching_sequences (start_at : ℕ) (seq_1 seq_2 : List Byte) :
    List (ℕ × List Byte) :=
  extract_matching_go start_at (seq_1.zip seq_2) 0 none [] []

/-- Embedding of `refine_common_byte_sequences_v2`: keep only pairs whose
offset is within the new buffer and replace each with the matching
subsequences of its in-bounds segment. -/
def refine_common_byte_sequences_v2 (file_bytes : List Byte)
    (sequences : List (ℕ × List Byte)) : List (ℕ × List Byte) :=
  let len := file_bytes.length
  (sequences.filter fun pr => pr.1 ≤ len).foldl
    (fun final_sequences pr =>
      let segment_read_length := min (pr.1 + pr.2.length) len
      final_sequences ++
        extract_matching_sequences pr.1 pr.2
          ((file_bytes.drop pr.1).take (segment_read_length - pr.1)))
    []

/-- Embedding of `strip_unwanted_sequences`: retain a pair iff every byte is
non-zero and the length is at least `MIN_BYTE_SEQUENCE_LENGTH`. -/
def strip_unwanted_sequences (sequences : List (ℕ × List Byte)) : List (ℕ × List Byte) :=
  sequences.filter fun pr => pr.2.all (fun x => x ≠ 0) && MIN_BYTE_SEQUENCE_LENGTH ≤ pr.2.length

/-- Byte-sequence part of `Pattern::build_patterns_from_data`: the first sample
seeds the list with `(0, chunk)`, every further sample refines it; afterwards
unwanted sequences are stripped and the list is sorted by offset descending. -/
def build_pattern_sequences (files : List (List Byte)) : List (ℕ × List Byte) :=
  let common_byte_sequences :=
    match files with
    | [] => []
    | first :: rest =>
        rest.foldl (fun seqs chunk => refine_common_byte_sequences_v2 chunk seqs) [(0, first)]
  sort_by (fun a b => b.1 ≤ a.1) (strip_unwanted_sequences common_byte_sequences)

/-- Embedding of `PatternData` (`itf-core/src/pattern.rs`): the scan-relevant
pattern payload.  `average_entropy` is an `f32` in Rust, idealised as `ℝ`. -/
structure PatternData where
  sequences : List (ℕ × List Byte)
  strings : Finset Str
  average_entropy : ℝ

/-- Embedding of `PatternTypeData`, restricted to the field the scorer reads
(name, description, mimetypes and uuid never influence scoring). -/
structure PatternTypeData where
  known_extensions : List Str

/-- Embedding of `Pattern` with `other_data` flattened to its single
scan-relevant field `total_scanned_files`. -/
structure Pattern where
  type_data : PatternTypeData
  data : PatternData
  total_scanned_files : ℕ
  max_points : ℕ
  confidence_factor : ℝ

/-- Embedding of `PatternData::should_scan_strings`. -/
def PatternData.should_scan_strings (d : PatternData) : Prop :=
  ¬d.strings = ∅

/-- Embedding of `PatternData.should_scan_sequences`. -/
def PatternData.should_scan_sequences (d : PatternData) : Prop :=
  ¬d.sequences = []

/-- Embedding of `PatternData.should_scan_composition` (`average_entropy != 0.0`). -/
def PatternData.should_scan_composition (d : PatternData) : Prop :=
  ¬d.average_entropy = 0

instance (d : PatternData) : Decidable d.should_scan_strings := by
  unfold PatternData.should_scan_strings; infer_instance

instance (d : PatternData) : Decidable d.should_scan_sequences := by
  unfold PatternData.should_scan_sequences; infer_instance

/-- Embedding of `utils::get_file_extension`: the uppercased part of the path
after the last dot (`Path::extension`; paths without a dot yield the empty
string). -/
def get_file_extension (path : Str) : Str :=
  if path.contains '.' then
    ((path.reverse.takeWhile fun c => c ≠ '.').reverse).map fun c =>
      if 97 ≤ c.toNat ∧ c.toNat ≤ 122 then Char.ofNat (c.toNat - 32) else c
  else []

/-- Loop of `FilePointCalculator::test_byte_sequences`: walk the pairs
accumulating points, bailing out with `(0, false)` on the first out-of-bounds
offset or byte mismatch. -/
def test_byte_sequences_go : List (ℕ × List Byte) → List Byte → ℕ → ℕ × Bool
  | [], _, points => (points, true)
  | (start, sequence) :: rest, bytes, points =>
      if bytes.length < start ∨ bytes.length < start + sequence.length then (0, false)
      else if ¬(bytes.drop start).take sequence.length = sequence then (0, false)
      else test_byte_sequences_go rest bytes (points + sequence.length)

/-- Embedding of `FilePointCalculator::test_byte_sequences`. -/
def test_byte_sequences (pattern : Pattern) (bytes : List Byte) : ℕ × Bool :=
  if ¬pattern.data.should_scan_sequences ∨ pattern.data.sequences = [] then (0, true)
  else test_byte_sequences_go pattern.data.sequences bytes 0

/-- Embedding of `FilePointCalculator::test_file_strings`: the summed lengths
of the pattern strings that also occur in the buffer's extracted string set. -/
def test_file_strings (pattern : Pattern) (bytes : List Byte) : ℕ :=
  if ¬pattern.data.should_scan_strings ∨ pattern.data.strings = ∅ then 0
  else ∑ s ∈ pattern.data.strings ∩ extract_file_strings bytes, s.length

/-- Embedding of `FilePointCalculator::test_entropy_deviation`: points scale
linearly with the percentage deviation of the buffer's entropy from the stored
average; there is no clamping. -/
noncomputable def test_entropy_deviation (pattern : Pattern) (frequencies : Byte → ℕ) : ℝ :=
  open Classical in
  let reference_entropy := pattern.data.average_entropy
  if ¬pattern.data.should_scan_composition ∨ reference_entropy = 0 then MAX_ENTROPY_POINTS
  else
    let target_entropy := calculate_shannon_entropy frequencies
    let absolute_diff := |reference_entropy - target_entropy|
    let percentage_diff :=
      if 0 < reference_entropy then absolute_diff / reference_entropy * 100 else 0
    MAX_ENTROPY_POINTS * (1 - percentage_diff / 100)

/-- Embedding of `FilePointCalculator::test_file_extension`. -/
noncomputable def test_file_extension (pattern : Pattern) (path : Str) : ℝ :=
  if get_file_extension path ∈ pattern.type_data.known_extensions then FILE_EXTENSION_POINTS
  else 0

/-- Scan subtotal of `FilePointCalculator::compute`: sequence points, string
points and composition points, each added only when the pattern enables that
scan kind. -/
noncomputable def scan_points (pattern : Pattern) (chunk : List Byte)
    (frequencies : Byte → ℕ) : ℝ :=
  open Classical in
  (if pattern.data.should_scan_sequences then ((test_byte_sequences pattern chunk).1 : ℝ) else 0)
  + (if pattern.data.should_scan_strings then (test_file_strings pattern chunk : ℝ) else 0)
  + (if pattern.data.should_scan_composition then test_entropy_deviation pattern frequencies
     else 0)

/-- Embedding of `FilePointCalculator::compute`: byte sequences are mandatory
(any failure returns 0 immediately); string and composition points are
additive; the subtotal is scaled by the confidence factor when requested; the
extension bonus is added unscaled; the result is rounded (saturating at 0). -/
noncomputable def compute (pattern : Pattern) (chunk : List Byte) (path : Str)
    (apply_confidence : Bool) : ℕ :=
  open Classical in
  let frequencies : Byte → ℕ :=
    if pattern.data.should_scan_sequences ∨ pattern.data.should_scan_composition then
      count_byte_frequencies chunk fun _ => 0
    else fun _ => 0
  if pattern.data.should_scan_sequences ∧ (test_byte_sequences pattern chunk).2 = false then 0
  else
    (round ((if apply_confidence then
        scan_points pattern chunk frequencies * pattern.confidence_factor
      else scan_points pattern chunk frequencies)
      + test_file_extension pattern path)).toNat

/-- Value computed by `Pattern::compute_confidence_factor`. -/
noncomputable def compute_confidence_factor (total_scanned_files : ℕ) : ℝ :=
  (total_scanned_files : ℝ) ^ CONFIDENCE_SCALE_FACTOR

/-- Scan subtotal of `Pattern::compute_max_points`: every enabled piece of
evidence counted at its maximum (all sequence bytes, all pattern string
lengths, the full entropy points). -/
noncomputable def max_scan_points (pattern : Pattern) : ℝ :=
  open Classical in
  (if pattern.data.should_scan_sequences then
    (((pattern.data.sequences.map fun pr => pr.2.length).sum : ℕ) : ℝ) else 0)
  + (if pattern.data.should_scan_strings then
      ((∑ s ∈ pattern.data.strings, s.length : ℕ) : ℝ) else 0)
  + (if pattern.data.should_scan_composition then MAX_ENTROPY_POINTS else 0)

/-- Value stored by `Pattern::compute_max_points`: each piece of evidence at
its maximum, scaled by the stored confidence factor, plus the extension bonus,
rounded up. -/
noncomputable def compute_max_points (pattern : Pattern) : ℕ :=
  ⌈max_scan_points pattern * pattern.confidence_factor + FILE_EXTENSION_POINTS⌉.toNat

/-- Embedding of `Pattern::compute_attributes`: populate `confidence_factor`
from the total scanned files, then `max_points` from the refreshed pattern. -/
noncomputable def compute_attributes (pattern : Pattern) : Pattern :=
  let p := { pattern with confidence_factor := compute_confidence_factor pattern.total_scanned_files }
  { p with max_points := compute_max_points p }

/-- Modelled from the spec: the registry loader `PatternHandler::read`
(`itf-core/src/pattern_handler.rs` is declared in `itf-core/src/lib.rs` and
called from `identify-the-file/src/main.rs`, but its source file is absent).
Per the spec, on load the registry deserializes each persisted record and
calls `compute_attributes` to populate `confidence_factor` and `max_points`
before storing the pattern; records that fail to deserialize are skipped, so
the input here is the list of successfully deserialized patterns. -/
noncomputable def pattern_handler_read (records : List Pattern) : List Pattern :=
  records.map compute_attributes

/-- Failure condition for a single positional sequence against a buffer, as in
the guard of `test_byte_sequences`: offset out of bounds, end out of bounds,
or slice mismatch. -/
def sequence_fails (chunk : List Byte) (pr : ℕ × List Byte) : Prop :=
  chunk.length < pr.1 ∨ chunk.length < pr.1 + pr.2.length
    ∨ ¬(chunk.drop pr.1).take pr.2.length = pr.2

instance (chunk : List Byte) (pr : ℕ × List Byte) : Decidable (sequence_fails chunk pr) := by
  unfold sequence_fails; infer_instance

/-- Training buffer of concrete scenario 2: the UTF-8 bytes of
`"abcdefghijkŠaŠ123456"` (22 bytes, the two `Š` being `[197, 160]`). -/
def c7_chunk : List Byte :=
  [97, 98, 99, 100, 101, 102, 103, 104, 105, 106, 107, 197, 160, 97, 197, 160,
   49, 50, 51, 52, 53, 54]

/-- Concrete pattern for exercising the mandatory-sequence rule: one sequence
whose end lies beyond a two-byte buffer. -/
def p_c1 : Pattern :=
  { type_data := { known_extensions := [] }
    data := { sequences := [(2, [1, 2, 3])], strings := ∅, average_entropy := 0 }
    total_scanned_files := 0
    max_points := 0
    confidence_factor := 0 }

/-- Concrete pattern whose attributes have been populated: base record. -/
noncomputable def p_c2_loaded : Pattern :=
  { type_data := { known_extensions := [['T', 'E', 'S', 'T']] }
    data := { sequences := [(0, [10, 20])], strings := {['H', 'E', 'L', 'L', 'O']}
              average_entropy := 1 }
    total_scanned_files := 8
    max_points := 0
    confidence_factor := compute_confidence_factor 8 }

/-- Concrete pattern with `max_points` populated from `compute_max_points`. -/
noncomputable def p_c2 : Pattern :=
  { p_c2_loaded with max_points := compute_max_points p_c2_loaded }

/-- Concrete persisted record for the registry-load theorem. -/
def p_c3 : Pattern :=
  { type_data := { known_extensions := [] }
    data := { sequences := [], strings := ∅, average_entropy := 0 }
    total_scanned_files := 27
    max_points := 0
    confidence_factor := 0 }

/-- Concrete pattern with a small positive stored average entropy, so that a
high-entropy buffer deviates by more than 100 percent. -/
noncomputable def p_c4 : Pattern :=
  { type_data := { known_extensions := [] }
    data := { sequences := [], strings := ∅, average_entropy := 1 / 2 }
    total_scanned_files := 1
    max_points := 0
    confidence_factor := 1 }

/-- Concrete pattern with zero stored average entropy and no other evidence. -/
noncomputable def p_c5 : Pattern :=
  { type_data := { known_extensions := [] }
    data := { sequences := [], strings := ∅, average_entropy := 0 }
    total_scanned_files := 1
    max_points := 0
    confidence_factor := 1 }

/-- Concrete input sets for the substring sieve. -/
def c8_sets : List (List Str) :=
  [[['H', 'E', 'L', 'L', 'O', '1']], [['2', 'H', 'E', 'L', 'L', 'O']]]

/-- Concrete buffer for the string extractor: the bytes of `"hello!~"`. -/
def c9_bytes : List Byte :=
  [104, 101, 108, 108, 111, 33, 126]

lemma foldl_update_count (data : List Byte) :
    ∀ (g : Byte → ℕ) (i : Byte),
      data.foldl (fun acc b => Function.update acc b (acc b + 1)) g i = g i + data.count i := by
  induction data with
  | nil => intro g i; simp
  | cons b l ih =>
    intro g i
    rw [List.foldl_cons, ih, List.count_cons]
    rcases eq_or_ne b i with h | h
    · subst h; simp [Function.update_apply]; omega
    · simp [Function.update_apply, Ne.symm h, h]

lemma sum_count_eq_length (data : List Byte) : ∑ b, data.count b = data.length := by
  induction data with
  | nil => simp
  | cons a l ih =>
    have : ∀ b : Byte, (a :: l).count b = l.count b + if a = b then 1 else 0 := by
      intro b
      rw [List.count_cons]
      simp [beq_iff_eq]
    simp only [this, Finset.sum_add_distrib, ih, Finset.sum_ite_eq, Finset.mem_univ, if_true]
    simp

/-- C10: the histogram accumulates instead of overwriting — each bin gains the
number of occurrences of its byte, the bins of the result sum to the buffer
length plus the previous total (so they sum to the buffer length exactly when
the counts start all-zero), and folding `count_byte_frequencies` over two
buffers equals one pass over their concatenation. -/
theorem c10_histogram_accumulates :
    (∀ (data : List Byte) (frequencies : Byte → ℕ) (b : Byte),
      count_byte_frequencies data frequencies b = frequencies b + data.count b)
    ∧ (∀ (data : List Byte) (frequencies : Byte → ℕ),
      ∑ b, count_byte_frequencies data frequencies b = data.length + ∑ b, frequencies b)
    ∧ (∀ (d1 d2 : List Byte) (frequencies : Byte → ℕ),
      count_byte_frequencies d2 (count_byte_frequencies d1 frequencies)
        = count_byte_frequencies (d1 ++ d2) frequencies) := by
  have key : ∀ (data : List Byte) (frequencies : Byte → ℕ) (b : Byte),
      count_byte_frequencies data frequencies b = frequencies b + data.count b := by
    intro data frequencies b
    unfold count_byte_frequencies
    rw [foldl_update_count]
    omega
  refine ⟨key, ?_, ?_⟩
  · intro data frequencies
    simp only [key, Finset.sum_add_distrib, sum_count_eq_length]
    omega
  · intro d1 d2 frequencies
    funext i
    simp only [key, List.count_append]
    omega

set_option maxRecDepth 4000 in
/-- C6 (code evaluation): `strip_unwanted_sequences` drops the pair
`(0, [97, 0])` even though it is not all-zero and meets the minimum length —
the code keeps only sequences with no zero byte at all, contradicting its own
comment (and the spec), which single out sequences that are purely null. -/
theorem c6_strip_drops_mixed_pair :
    strip_unwanted_sequences [(0, [(97 : Byte), 0])] = []
    ∧ ¬(∀ b ∈ [(97 : Byte), (0 : Byte)], b = 0)
    ∧ (0 : Byte) ∈ [(97 : Byte), (0 : Byte)]
    ∧ MIN_BYTE_SEQUENCE_LENGTH ≤ [(97 : Byte), (0 : Byte)].length := by
  decide

set_option maxRecDepth 16000 in
/-- C7: building the byte sequences of a pattern from two identical training
buffers holding the UTF-8 bytes of `"abcdefghijkŠaŠ123456"` splits the fully
matching run at the maximum length 16, restarts at the next index, and sorts
the result offset-descending: exactly `[(16, "123456"), (0, "abcdefghijkŠaŠ")]`. -/
theorem c7_sequence_split_at_max_length :
    build_pattern_sequences [c7_chunk, c7_chunk] =
      [(16, [49, 50, 51, 52, 53, 54]),
       (0, [97, 98, 99, 100, 101, 102, 103, 104, 105, 106, 107, 197, 160, 97, 197, 160])] := by
  decide

lemma test_byte_sequences_go_of_fail (bytes : List Byte) :
    ∀ (l : List (ℕ × List Byte)) (points : ℕ),
      (∃ pr ∈ l, sequence_fails bytes pr) →
      test_byte_sequences_go l bytes points = (0, false) := by
  intro l
  induction l with
  | nil => intro points h; simp at h
  | cons hd tl ih =>
    intro points h
    obtain ⟨start, sequence⟩ := hd
    unfold test_byte_sequences_go
    by_cases h1 : bytes.length < start ∨ bytes.length < start + sequence.length
    · rw [if_pos h1]
    · rw [if_neg h1]
      by_cases h2 : ¬(bytes.drop start).take sequence.length = sequence
      · rw [if_pos h2]
      · rw [if_neg h2]
        apply ih
        rcases h with ⟨pr, hmem, hfails⟩
        rcases List.mem_cons.mp hmem with rfl | hmem'
        · exfalso
          unfold sequence_fails at hfails
          dsimp only at hfails
          push_neg at h1
          rcases hfails with hf | hf | hf
          · omega
          · omega
          · exact h2 hf
        · exact ⟨pr, hmem', hfails⟩

lemma test_byte_sequences_go_of_pass (bytes : List Byte) :
    ∀ (l : List (ℕ × List Byte)) (points : ℕ),
      (∀ pr ∈ l, ¬sequence_fails bytes pr) →
      test_byte_sequences_go l bytes points
        = (points + (l.map fun pr => pr.2.length).sum, true) := by
  intro l
  induction l with
  | nil => intro points _; simp [test_byte_sequences_go]
  | cons hd tl ih =>
    intro points h
    obtain ⟨start, sequence⟩ := hd
    have hhd := h (start, sequence) (List.mem_cons_self _ _)
    unfold sequence_fails at hhd
    dsimp only at hhd
    push_neg at hhd
    obtain ⟨hb1, hb2, hb3⟩ := hhd
    unfold test_byte_sequences_go
    rw [if_neg (by omega), if_neg (by simpa using hb3)]
    rw [ih _ fun pr hpr => h pr (List.mem_cons_of_mem _ hpr)]
    simp
    omega

lemma test_byte_sequences_go_points_of_success (bytes : List Byte) :
    ∀ (l : List (ℕ × List Byte)) (points : ℕ),
      (test_byte_sequences_go l bytes points).2 = true →
      (test_byte_sequences_go l bytes points).1
        = points + (l.map fun pr => pr.2.length).sum := by
  intro l
  induction l with
  | nil => intro points _; simp [test_byte_sequences_go]
  | cons hd tl ih =>
    intro points h
    obtain ⟨start, sequence⟩ := hd
    unfold test_byte_sequences_go at h ⊢
    by_cases h1 : bytes.length < start ∨ bytes.length < start + sequence.length
    · rw [if_pos h1] at h; simp at h
    · rw [if_neg h1] at h ⊢
      by_cases h2 : ¬(bytes.drop start).take sequence.length = sequence
      · rw [if_pos h2] at h; simp at h
      · rw [if_neg h2] at h ⊢
        rw [ih _ h]
        simp
        omega

/-- C1: sequence matching is all-or-nothing.  For a pattern with a non-empty
sequence list, if any pair is out of bounds or mismatched on the buffer then
`compute` returns exactly 0 (for every path and confidence flag); otherwise
`test_byte_sequences` succeeds and awards the length of every sequence. -/
theorem c1_sequences_all_or_nothing (pattern : Pattern) (chunk : List Byte) (path : Str)
    (apply_confidence : Bool) (hne : ¬pattern.data.sequences = []) :
    ((∃ pr ∈ pattern.data.sequences, sequence_fails chunk pr) →
      compute pattern chunk path apply_confidence = 0)
    ∧ ((∀ pr ∈ pattern.data.sequences, ¬sequence_fails chunk pr) →
      test_byte_sequences pattern chunk
        = ((pattern.data.sequences.map fun pr => pr.2.length).sum, true)) := by
  have hscan : pattern.data.should_scan_sequences := hne
  constructor
  · intro hfail
    have htest : test_byte_sequences pattern chunk = (0, false) := by
      unfold test_byte_sequences
      rw [if_neg (by simp [hscan, hne])]
      exact test_byte_sequences_go_of_fail chunk _ 0 hfail
    unfold compute
    rw [htest]
    rw [if_pos ⟨hscan, rfl⟩]
  · intro hpass
    unfold test_byte_sequences
    rw [if_neg (by simp [hscan, hne])]
    rw [test_byte_sequences_go_of_pass chunk _ 0 hpass]
    simp

/-- Witness for C1 at a concrete input: the single sequence `(2, [1, 2, 3])`
overruns the two-byte buffer, and the computed score is exactly 0. -/
theorem c1_sequences_all_or_nothing_witness :
    ¬p_c1.data.sequences = []
    ∧ (∃ pr ∈ p_c1.data.sequences, sequence_fails [0, 0] pr)
    ∧ compute p_c1 [0, 0] [] true = 0 :=
  ⟨by decide, by decide,
    (c1_sequences_all_or_nothing p_c1 [0, 0] [] true (by decide)).1 (by decide)⟩

lemma max_scan_points_nonneg (pattern : Pattern) : 0 ≤ max_scan_points pattern := by
  unfold max_scan_points
  have h1 : (0 : ℝ) ≤
      (((pattern.data.sequences.map fun pr => pr.2.length).sum : ℕ) : ℝ) := Nat.cast_nonneg _
  have h2 : (0 : ℝ) ≤ ((∑ s ∈ pattern.data.strings, s.length : ℕ) : ℝ) := Nat.cast_nonneg _
  have h3 : (0 : ℝ) ≤ MAX_ENTROPY_POINTS := by unfold MAX_ENTROPY_POINTS; norm_num
  split <;> split <;> split <;> linarith

lemma compute_max_points_ge_five (pattern : Pattern)
    (hcf : 0 ≤ pattern.confidence_factor) :
    5 ≤ compute_max_points pattern := by
  unfold compute_max_points
  have hbase := max_scan_points_nonneg pattern
  have h5 : ((5 : ℤ) : ℝ) ≤
      max_scan_points pattern * pattern.confidence_factor + FILE_EXTENSION_POINTS := by
    unfold FILE_EXTENSION_POINTS
    push_cast
    nlinarith [mul_nonneg hbase hcf]
  have hle : (5 : ℤ) ≤
      ⌈max_scan_points pattern * pattern.confidence_factor + FILE_EXTENSION_POINTS⌉ := by
    calc (5 : ℤ) = ⌈((5 : ℤ) : ℝ)⌉ := (Int.ceil_intCast 5).symm
    _ ≤ _ := Int.ceil_mono h5
  calc (5 : ℕ) = ((5 : ℤ)).toNat := rfl
  _ ≤ _ := Int.toNat_le_toNat hle

/-- C3: every pattern stored by the registry loader has its derived attributes
populated — the confidence factor equals the cube root of the total scanned
files, `max_points` equals the value of `compute_max_points`, and in
particular `max_points` is at least the extension bonus of 5, never 0. -/
theorem c3_registry_populates_attributes (records : List Pattern) (q : Pattern)
    (hq : q ∈ pattern_handler_read records) :
    q.confidence_factor = (q.total_scanned_files : ℝ) ^ ((1 : ℝ) / 3)
    ∧ q.max_points = compute_max_points q
    ∧ 5 ≤ q.max_points := by
  rcases List.mem_map.mp hq with ⟨p, _, rfl⟩
  refine ⟨rfl, rfl, ?_⟩
  exact compute_max_points_ge_five _
    (Real.rpow_nonneg (Nat.cast_nonneg _) _)

/-- Witness for C3 at a concrete input: loading the single record `p_c3`
stores a pattern whose `max_points` is at least 5. -/
theorem c3_registry_populates_attributes_witness :
    compute_attributes p_c3 ∈ pattern_handler_read [p_c3]
    ∧ 5 ≤ (compute_attributes p_c3).max_points :=
  ⟨List.mem_map_of_mem compute_attributes (List.mem_singleton_self p_c3),
    (c3_registry_populates_attributes [p_c3] (compute_attributes p_c3)
      (List.mem_map_of_mem compute_attributes (List.mem_singleton_self p_c3))).2.2⟩

set_option maxRecDepth 8000 in
lemma shannon_entropy_of_four_distinct :
    calculate_shannon_entropy (count_byte_frequencies [0, 1, 2, 3] fun _ => 0) = 2 := by
  have hf : ∀ i : Byte, (count_byte_frequencies [0, 1, 2, 3] fun _ => 0) i
      = if i.val < 4 then 1 else 0 := by decide
  have htot : (∑ i, (count_byte_frequencies [0, 1, 2, 3] fun _ => 0) i) = 4 := by decide
  unfold calculate_shannon_entropy
  simp only [htot]
  have hlogb : Real.logb 2 ((1 : ℝ) / 4) = -2 := by
    rw [show (1 : ℝ) / 4 = ((2 : ℝ) ^ (2 : ℕ))⁻¹ by norm_num, Real.logb_inv, Real.logb_pow,
      Real.logb_self_eq_one (by norm_num)]
    norm_num
  have hterm : ∀ i : Byte,
      (if (count_byte_frequencies [0, 1, 2, 3] fun _ => 0) i = 0 then (0 : ℝ)
        else -(((count_byte_frequencies [0, 1, 2, 3] fun _ => 0) i / ((4 : ℕ) : ℝ))
          * Real.logb 2 ((count_byte_frequencies [0, 1, 2, 3] fun _ => 0) i / ((4 : ℕ) : ℝ))))
      = if i.val < 4 then (1 / 2 : ℝ) else 0 := by
    intro i
    rw [hf i]
    by_cases h : i.val < 4
    · rw [if_pos h, if_neg (by norm_num), if_pos h]
      rw [show (((1 : ℕ) : ℝ) / ((4 : ℕ) : ℝ)) = (1 : ℝ) / 4 by push_cast; ring, hlogb]
      norm_num
    · rw [if_neg h, if_pos rfl, if_neg h]
  rw [Finset.sum_congr rfl fun i _ => hterm i]
  rw [Finset.sum_ite, Finset.sum_const, Finset.sum_const_zero, add_zero]
  rw [show (Finset.filter (fun i : Byte => i.val < 4) Finset.univ).card = 4 from by decide]
  norm_num

/-- Counterexample for C4 as stated: with stored average entropy `1/2` and a
buffer of four distinct bytes (entropy 2, deviation 300 percent), the
composition term is negative — the code never clamps it at zero. -/
theorem c4_entropy_deviation_negative_counterexample :
    0 < p_c4.data.average_entropy
    ∧ test_entropy_deviation p_c4 (count_byte_frequencies [0, 1, 2, 3] fun _ => 0) < 0 := by
  constructor
  · exact one_half_pos
  · have hcomp : p_c4.data.should_scan_composition := by
      unfold PatternData.should_scan_composition
      norm_num [p_c4]
    unfold test_entropy_deviation
    rw [if_neg (not_or.mpr ⟨not_not_intro hcomp, by norm_num [p_c4]⟩)]
    dsimp only
    rw [shannon_entropy_of_four_distinct]
    rw [if_pos (show (0 : ℝ) < p_c4.data.average_entropy from one_half_pos)]
    have havg : p_c4.data.average_entropy = 1 / 2 := rfl
    rw [havg]
    unfold MAX_ENTROPY_POINTS
    rw [show |(1 : ℝ) / 2 - 2| = 3 / 2 from by rw [abs_of_nonpos] <;> norm_num]
    norm_num

/-- C4 amended: for a pattern with positive stored average entropy, the
composition term equals `max_entropy_points · (1 − Δ/100)` with no clamping at
zero — it is at most `max_entropy_points`, but when the deviation Δ exceeds
100 percent it is negative and reduces the combined sequence-plus-string
points. -/
theorem c4_entropy_deviation_unclamped (pattern : Pattern) (frequencies : Byte → ℕ)
    (h : 0 < pattern.data.average_entropy) :
    test_entropy_deviation pattern frequencies
      = MAX_ENTROPY_POINTS * (1 -
          (|calculate_shannon_entropy frequencies - pattern.data.average_entropy|
            / pattern.data.average_entropy * 100) / 100)
    ∧ test_entropy_deviation pattern frequencies ≤ MAX_ENTROPY_POINTS := by
  have hne : pattern.data.average_entropy ≠ 0 := ne_of_gt h
  have hcomp : pattern.data.should_scan_composition := hne
  have heq : test_entropy_deviation pattern frequencies
      = MAX_ENTROPY_POINTS * (1 -
          (|calculate_shannon_entropy frequencies - pattern.data.average_entropy|
            / pattern.data.average_entropy * 100) / 100) := by
    unfold test_entropy_deviation
    rw [if_neg (not_or.mpr ⟨not_not_intro hcomp, hne⟩)]
    dsimp only
    rw [if_pos h, abs_sub_comm]
  refine ⟨heq, ?_⟩
  rw [heq]
  have hd : 0 ≤ |calculate_shannon_entropy frequencies - pattern.data.average_entropy|
      / pattern.data.average_entropy * 100 := by positivity
  unfold MAX_ENTROPY_POINTS
  nlinarith

/-- Witness for C4's amended claim at a concrete input: `p_c4` has positive
average entropy and its composition term is bounded by the maximum entropy
points. -/
theorem c4_entropy_deviation_unclamped_witness :
    0 < p_c4.data.average_entropy
    ∧ test_entropy_deviation p_c4 (fun _ => 0) ≤ MAX_ENTROPY_POINTS :=
  ⟨one_half_pos, (c4_entropy_deviation_unclamped p_c4 (fun _ => 0) one_half_pos).2⟩

lemma scan_points_of_zero_entropy (pattern : Pattern) (chunk : List Byte)
    (h : pattern.data.average_entropy = 0) (frequencies : Byte → ℕ) :
    scan_points pattern chunk frequencies
      = (if pattern.data.should_scan_sequences then ((test_byte_sequences pattern chunk).1 : ℝ)
         else 0)
        + (if pattern.data.should_scan_strings then (test_file_strings pattern chunk : ℝ)
           else 0) := by
  have hcomp : ¬pattern.data.should_scan_composition := by
    unfold PatternData.should_scan_composition
    simp [h]
  unfold scan_points
  rw [if_neg hcomp, add_zero]

/-- Counterexample for C5 as stated: `p_c5` has zero stored average entropy
and no other evidence, and `compute` returns 0, not the claimed 15 — the
composition branch is skipped, so it contributes nothing to the total. -/
theorem c5_zero_entropy_counterexample :
    p_c5.data.average_entropy = 0 ∧ compute p_c5 [] [] true = 0 := by
  refine ⟨rfl, ?_⟩
  have hseq : ¬p_c5.data.should_scan_sequences := by decide
  have hstr : ¬p_c5.data.should_scan_strings := by decide
  unfold compute
  dsimp only
  rw [if_neg (by simp [hseq])]
  rw [scan_points_of_zero_entropy p_c5 [] rfl]
  rw [if_neg hseq, if_neg hstr]
  have hext : test_file_extension p_c5 [] = 0 := by
    unfold test_file_extension
    rw [if_neg (by decide)]
  rw [hext]
  norm_num

/-- C5 amended: when the stored average entropy is zero the composition branch
of `compute` is skipped entirely, so it contributes 0 (not 15) to the point
total — even though `test_entropy_deviation` itself would return the full
`MAX_ENTROPY_POINTS` if it were called.  The scan subtotal reduces to the
sequence and string terms alone, independently of the histogram. -/
theorem c5_zero_entropy_amended (pattern : Pattern) (chunk : List Byte)
    (h : pattern.data.average_entropy = 0) :
    (∀ frequencies, test_entropy_deviation pattern frequencies = MAX_ENTROPY_POINTS)
    ∧ (∀ frequencies, scan_points pattern chunk frequencies
        = (if pattern.data.should_scan_sequences then ((test_byte_sequences pattern chunk).1 : ℝ)
           else 0)
          + (if pattern.data.should_scan_strings then (test_file_strings pattern chunk : ℝ)
             else 0)) := by
  constructor
  · intro frequencies
    unfold test_entropy_deviation
    rw [if_pos (Or.inr h)]
  · exact scan_points_of_zero_entropy pattern chunk h

/-- Witness for C5's amended claim at a concrete input. -/
theorem c5_zero_entropy_amended_witness :
    p_c5.data.average_entropy = 0
    ∧ test_entropy_deviation p_c5 (fun _ => 0) = MAX_ENTROPY_POINTS :=
  ⟨rfl, (c5_zero_entropy_amended p_c5 [] rfl).1 (fun _ => 0)⟩

lemma test_entropy_deviation_le (pattern : Pattern) (frequencies : Byte → ℕ) :
    test_entropy_deviation pattern frequencies ≤ MAX_ENTROPY_POINTS := by
  unfold test_entropy_deviation
  by_cases hc : ¬pattern.data.should_scan_composition ∨ pattern.data.average_entropy = 0
  · rw [if_pos hc]
  · rw [if_neg hc]
    dsimp only
    by_cases h0 : 0 < pattern.data.average_entropy
    · rw [if_pos h0]
      have hd : 0 ≤ |pattern.data.average_entropy - calculate_shannon_entropy frequencies|
          / pattern.data.average_entropy * 100 := by positivity
      unfold MAX_ENTROPY_POINTS
      nlinarith
    · rw [if_neg h0]
      unfold MAX_ENTROPY_POINTS
      norm_num

lemma test_file_strings_le (pattern : Pattern) (chunk : List Byte) :
    test_file_strings pattern chunk ≤ ∑ s ∈ pattern.data.strings, s.length := by
  unfold test_file_strings
  split
  · exact Nat.zero_le _
  · exact Finset.sum_le_sum_of_subset Finset.inter_subset_left

lemma test_file_extension_le (pattern : Pattern) (path : Str) :
    test_file_extension pattern path ≤ FILE_EXTENSION_POINTS := by
  unfold test_file_extension
  split
  · exact le_refl _
  · unfold FILE_EXTENSION_POINTS; norm_num

lemma test_byte_sequences_points_eq (pattern : Pattern) (chunk : List Byte)
    (hne : ¬pattern.data.sequences = [])
    (hsucc : (test_byte_sequences pattern chunk).2 = true) :
    (test_byte_sequences pattern chunk).1
      = (pattern.data.sequences.map fun pr => pr.2.length).sum := by
  have hscan : pattern.data.should_scan_sequences := hne
  unfold test_byte_sequences at hsucc ⊢
  rw [if_neg (by simp [hscan, hne])] at hsucc ⊢
  rw [test_byte_sequences_go_points_of_success chunk _ 0 hsucc]
  omega

lemma scan_points_le_max (pattern : Pattern) (chunk : List Byte) (frequencies : Byte → ℕ)
    (hnofail : ¬(pattern.data.should_scan_sequences
      ∧ (test_byte_sequences pattern chunk).2 = false)) :
    scan_points pattern chunk frequencies ≤ max_scan_points pattern := by
  unfold scan_points max_scan_points
  refine add_le_add (add_le_add ?_ ?_) ?_
  · by_cases h : pattern.data.should_scan_sequences
    · rw [if_pos h, if_pos h]
      have hsucc : (test_byte_sequences pattern chunk).2 = true := by
        cases hb : (test_byte_sequences pattern chunk).2 with
        | false => exact absurd ⟨h, hb⟩ hnofail
        | true => rfl
      rw [test_byte_sequences_points_eq pattern chunk h hsucc]
    · rw [if_neg h, if_neg h]
  · by_cases h : pattern.data.should_scan_strings
    · rw [if_pos h, if_pos h]
      exact_mod_cast test_file_strings_le pattern chunk
    · rw [if_neg h, if_neg h]
  · by_cases h : pattern.data.should_scan_composition
    · rw [if_pos h, if_pos h]
      exact test_entropy_deviation_le pattern frequencies
    · rw [if_neg h, if_neg h]

lemma round_le_ceil_of_le (x y : ℝ) (h : x ≤ y) : round x ≤ ⌈y⌉ := by
  have h1 : ((round x : ℤ) : ℝ) ≤ x + 1 / 2 := by
    rw [round_eq]
    exact_mod_cast Int.floor_le (x + 1 / 2)
  have h2 : y ≤ ((⌈y⌉ : ℤ) : ℝ) := Int.le_ceil y
  have h3 : ((round x : ℤ) : ℝ) < ((⌈y⌉ : ℤ) : ℝ) + 1 := by linarith
  have h4 : round x < ⌈y⌉ + 1 := by exact_mod_cast h3
  omega

/-- C2: the precomputed `max_points` bounds every achievable score.  For any
pattern whose attributes have been populated (`confidence_factor` from the
scanned-file total and `max_points` from `compute_max_points`), the
confidence-scaled score of any buffer and path never exceeds `max_points`. -/
theorem c2_max_points_bounds_score (pattern : Pattern) (chunk : List Byte) (path : Str)
    (hcf : pattern.confidence_factor = compute_confidence_factor pattern.total_scanned_files)
    (hmax : pattern.max_points = compute_max_points pattern) :
    compute pattern chunk path true ≤ pattern.max_points := by
  rw [hmax]
  have hcf0 : 0 ≤ pattern.confidence_factor := by
    rw [hcf]
    unfold compute_confidence_factor
    exact Real.rpow_nonneg (Nat.cast_nonneg _) _
  unfold compute
  dsimp only
  by_cases hfail : pattern.data.should_scan_sequences
      ∧ (test_byte_sequences pattern chunk).2 = false
  · rw [if_pos hfail]
    exact Nat.zero_le _
  · rw [if_neg hfail]
    rw [if_pos rfl]
    unfold compute_max_points
    apply Int.toNat_le_toNat
    apply round_le_ceil_of_le
    exact add_le_add
      (mul_le_mul_of_nonneg_right (scan_points_le_max pattern chunk _ hfail) hcf0)
      (test_file_extension_le pattern path)

/-- Witness for C2 at a concrete input: `p_c2` has populated attributes, and
scoring an empty buffer stays within its `max_points`. -/
theorem c2_max_points_bounds_score_witness :
    p_c2.confidence_factor = compute_confidence_factor p_c2.total_scanned_files
    ∧ p_c2.max_points = compute_max_points p_c2
    ∧ compute p_c2 [] [] true ≤ p_c2.max_points :=
  ⟨rfl, rfl, c2_max_points_bounds_score p_c2 [] [] rfl rfl⟩

set_option maxRecDepth 40000 in
lemma readable_byte_canonical :
    ∀ b : Byte, ascii_readable_characters_set b = true →
      ascii_uppercase_map b ∈ ASCII_CHARACTER_STRING
      ∧ ¬(97 ≤ (ascii_uppercase_map b).toNat ∧ (ascii_uppercase_map b).toNat ≤ 122) := by
  decide

lemma extract_strings_go_invariant :
    ∀ (bytes : List Byte) (string_buffer : Str) (strings : Finset Str),
      string_buffer.length < MAX_STRING_LENGTH →
      (∀ c ∈ string_buffer, c ∈ ASCII_CHARACTER_STRING
        ∧ ¬(97 ≤ c.toNat ∧ c.toNat ≤ 122)) →
      (∀ t ∈ strings, MIN_STRING_LENGTH ≤ t.length ∧ t.length ≤ MAX_STRING_LENGTH
        ∧ ∀ c ∈ t, c ∈ ASCII_CHARACTER_STRING ∧ ¬(97 ≤ c.toNat ∧ c.toNat ≤ 122)) →
      ∀ t ∈ extract_strings_go bytes string_buffer strings,
        MIN_STRING_LENGTH ≤ t.length ∧ t.length ≤ MAX_STRING_LENGTH
        ∧ ∀ c ∈ t, c ∈ ASCII_CHARACTER_STRING ∧ ¬(97 ≤ c.toNat ∧ c.toNat ≤ 122) := by
  intro bytes
  induction bytes with
  | nil =>
    intro string_buffer strings hlen hchars hacc t ht
    unfold extract_strings_go at ht
    by_cases hmin : MIN_STRING_LENGTH ≤ string_buffer.length
    · rw [if_pos hmin] at ht
      rcases Finset.mem_insert.mp ht with rfl | ht'
      · exact ⟨hmin, le_of_lt hlen, hchars⟩
      · exact hacc t ht'
    · rw [if_neg hmin] at ht
      exact hacc t ht
  | cons b rest ih =>
    intro string_buffer strings hlen hchars hacc t ht
    unfold extract_strings_go at ht
    by_cases hr : ascii_readable_characters_set b = true
    · rw [if_pos hr] at ht
      dsimp only at ht
      have hchars' : ∀ c ∈ string_buffer ++ [ascii_uppercase_map b],
          c ∈ ASCII_CHARACTER_STRING ∧ ¬(97 ≤ c.toNat ∧ c.toNat ≤ 122) := by
        intro c hc
        rcases List.mem_append.mp hc with hc' | hc'
        · exact hchars c hc'
        · rcases List.mem_singleton.mp hc' with rfl
          exact readable_byte_canonical b hr
      by_cases hmax : (string_buffer ++ [ascii_uppercase_map b]).length = MAX_STRING_LENGTH
      · rw [if_pos hmax] at ht
        refine ih [] _ (by unfold MAX_STRING_LENGTH; norm_num) (by simp) ?_ t ht
        intro u hu
        rcases Finset.mem_insert.mp hu with rfl | hu'
        · refine ⟨?_, le_of_eq hmax, hchars'⟩
          rw [hmax]
          unfold MIN_STRING_LENGTH MAX_STRING_LENGTH
          norm_num
        · exact hacc u hu'
      · rw [if_neg hmax] at ht
        refine ih _ _ ?_ hchars' hacc t ht
        have : (string_buffer ++ [ascii_uppercase_map b]).length = string_buffer.length + 1 := by
          simp
        omega
    · rw [if_neg hr] at ht
      by_cases hmin : MIN_STRING_LENGTH ≤ string_buffer.length
      · rw [if_pos hmin] at ht
        refine ih [] _ (by unfold MAX_STRING_LENGTH; norm_num) (by simp) ?_ t ht
        intro u hu
        rcases Finset.mem_insert.mp hu with rfl | hu'
        · exact ⟨hmin, le_of_lt hlen, hchars⟩
        · exact hacc u hu'
      · rw [if_neg hmin] at ht
        exact ih [] _ (by unfold MAX_STRING_LENGTH; norm_num) (by simp) hacc t ht

/-- C9: every string extracted from a buffer has length between 5 and 64 and
consists only of characters of the printable subset in uppercase-canonical
form (no character is a lowercase letter — lowercase input is uppercased). -/
theorem c9_extracted_strings_canonical (bytes : List Byte) (s : Str)
    (hs : s ∈ extract_file_strings bytes) :
    MIN_STRING_LENGTH ≤ s.length ∧ s.length ≤ MAX_STRING_LENGTH
    ∧ ∀ c ∈ s, c ∈ ASCII_CHARACTER_STRING ∧ ¬(97 ≤ c.toNat ∧ c.toNat ≤ 122) := by
  refine extract_strings_go_invariant bytes [] ∅ ?_ (by simp) ?_ s hs
  · unfold MAX_STRING_LENGTH; norm_num
  · intro t ht
    exact absurd ht (Finset.not_mem_empty t)

/-- Witness for C9 at a concrete input: the buffer `"hello!~"` yields the
canonical string `"HELLO!"`, which satisfies all three conditions. -/
theorem c9_extracted_strings_canonical_witness :
    ['H', 'E', 'L', 'L', 'O', '!'] ∈ extract_file_strings c9_bytes
    ∧ MIN_STRING_LENGTH ≤ (['H', 'E', 'L', 'L', 'O', '!'] : Str).length :=
  ⟨by decide,
    (c9_extracted_strings_canonical c9_bytes ['H', 'E', 'L', 'L', 'O', '!'] (by decide)).1⟩

lemma take_drop_substring (l : Str) (i n : ℕ) : (l.drop i).take n <:+: l := by
  refine ⟨l.take i, (l.drop i).drop n, ?_⟩
  rw [List.append_assoc, List.take_append_drop, List.take_append_drop]

lemma find_slice_isSome_substring (haystack needle : Str)
    (h : (find_slice haystack needle).isSome = true) : needle <:+: haystack := by
  unfold find_slice at h
  by_cases h0 : needle = []
  · subst h0; exact List.nil_infix
  · rw [if_neg h0] at h
    by_cases h1 : haystack.length < needle.length
    · rw [if_pos h1] at h; simp at h
    · rw [if_neg h1] at h
      rw [Option.isSome_iff_exists] at h
      obtain ⟨i, hi⟩ := h
      have hpred := List.find?_some hi
      have heq : (haystack.drop i).take needle.length = needle := by
        simpa using hpred
      rw [← heq]
      exact take_drop_substring haystack i needle.length

lemma infix_find_slice_isSome (haystack needle : Str) (h : needle <:+: haystack) :
    (find_slice haystack needle).isSome = true := by
  unfold find_slice
  by_cases h0 : needle = []
  · rw [if_pos h0]; rfl
  · rw [if_neg h0]
    obtain ⟨s, t, hst⟩ := h
    have hlen : s.length + needle.length + t.length = haystack.length := by
      rw [← hst]; simp; omega
    have h1 : ¬haystack.length < needle.length := by omega
    rw [if_neg h1]
    rw [List.find?_isSome]
    refine ⟨s.length, ?_, ?_⟩
    · rw [List.mem_range]
      omega
    · have hdrop : haystack.drop s.length = needle ++ t := by
        rw [← hst, List.append_assoc, List.drop_left]
      rw [hdrop]
      simp [List.take_left]

lemma mem_windows_substring (l : Str) (size : ℕ) (w : Str) (hw : w ∈ windows l size) :
    w <:+: l := by
  unfold windows at hw
  by_cases h : size ≤ l.length
  · rw [if_pos h] at hw
    rcases List.mem_map.mp hw with ⟨i, _, rfl⟩
    exact take_drop_substring l i size
  · rw [if_neg h] at hw
    simp at hw

lemma largest_common_substring_spec (str_1 str_2 r : Str)
    (h : largest_common_substring str_1 str_2 = some r) :
    r <:+: str_1 ∧ r <:+: str_2 := by
  unfold largest_common_substring at h
  by_cases he : str_1 = str_2
  · rw [if_pos he] at h
    rcases Option.some_inj.mp h with rfl
    exact ⟨List.infix_rfl, he ▸ List.infix_rfl⟩
  · rw [if_neg he] at h
    by_cases hc : !has_common_elements str_1 str_2
    · rw [if_pos hc] at h; simp at h
    · rw [if_neg hc] at h
      obtain ⟨size, _, hfind⟩ := List.exists_of_findSome?_eq_some h
      have hmem := List.mem_of_find?_eq_some hfind
      have hpred := List.find?_some hfind
      exact ⟨mem_windows_substring str_1 size r hmem,
        find_slice_isSome_substring str_2 r hpred⟩

lemma max_by_string_length_foldl_mem (m : Str) :
    ∀ (l : List Str) (acc : Option Str),
      l.foldl
        (fun acc s =>
          match acc with
          | none => some s
          | some cur => if cur.length ≤ s.length then some s else some cur)
        acc = some m →
      acc = some m ∨ m ∈ l := by
  intro l
  induction l with
  | nil => intro acc h; exact Or.inl h
  | cons s rest ih =>
    intro acc h
    rcases ih _ h with hstep | hmem
    · match acc with
      | none =>
        simp only at hstep
        rcases Option.some_inj.mp hstep with rfl
        exact Or.inr (List.mem_cons_self _ _)
      | some cur =>
        simp only at hstep
        split at hstep
        · rcases Option.some_inj.mp hstep with rfl
          exact Or.inr (List.mem_cons_self _ _)
        · exact Or.inl hstep
    · exact Or.inr (List.mem_cons_of_mem s hmem)

lemma max_by_string_length_mem (l : List Str) (m : Str)
    (h : max_by_string_length l = some m) : m ∈ l := by
  rcases max_by_string_length_foldl_mem m l none h with h' | h'
  · simp at h'
  · exact h'

lemma common_string_sieve_step_mem (set common_strings : List Str) (m : Str)
    (hm : m ∈ common_string_sieve_step set common_strings) :
    ∃ cs ∈ common_strings, ∃ s ∈ set, largest_common_substring s cs = some m := by
  rcases List.mem_filterMap.mp hm with ⟨cs, hcs, hmax⟩
  have hmem := max_by_string_length_mem _ _ hmax
  rcases List.mem_filterMap.mp hmem with ⟨s, hs, hlcs⟩
  exact ⟨cs, hcs, s, hs, hlcs⟩

lemma common_string_sieve_loop_invariant :
    ∀ (sets : List (List Str)) (Q : Str → Prop),
      (∀ m w, m <:+: w → Q w → Q m) →
      ∀ common_strings, (∀ w ∈ common_strings, Q w) →
      ∀ w ∈ common_string_sieve_loop sets common_strings,
        Q w ∧ ∀ S ∈ sets, ∃ s ∈ S, w <:+: s := by
  intro sets
  induction sets with
  | nil =>
    intro Q _ common hcommon w hw
    unfold common_string_sieve_loop at hw
    exact ⟨hcommon w hw, by simp⟩
  | cons set rest ih =>
    intro Q hQ common hcommon w hw
    unfold common_string_sieve_loop at hw
    dsimp only at hw
    by_cases hempty : common_string_sieve_step set common = []
    · rw [if_pos hempty] at hw
      simp at hw
    · rw [if_neg hempty] at hw
      have hnew : ∀ m ∈ common_string_sieve_step set common,
          (Q m ∧ ∃ s ∈ set, m <:+: s) := by
        intro m hm
        rcases common_string_sieve_step_mem set common m hm with ⟨cs, hcs, s, hs, hlcs⟩
        rcases largest_common_substring_spec s cs m hlcs with ⟨hms, hmcs⟩
        exact ⟨hQ m cs hmcs (hcommon cs hcs), s, hs, hms⟩
      have ihres := ih (fun m => Q m ∧ ∃ s ∈ set, m <:+: s)
        (fun m v hmv hv => ⟨hQ m v hmv hv.1, by
          rcases hv.2 with ⟨s, hs, hvs⟩
          exact ⟨s, hs, hmv.trans hvs⟩⟩)
        _ hnew w hw
      refine ⟨ihres.1.1, ?_⟩
      intro S hS
      rcases List.mem_cons.mp hS with rfl | hS'
      · exact ihres.1.2
      · exact ihres.2 S hS'

lemma insert_sorted_by_perm {α : Type} (le : α → α → Bool) (x : α) :
    ∀ l : List α, (insert_sorted_by le x l).Perm (x :: l) := by
  intro l
  induction l with
  | nil => exact List.Perm.refl _
  | cons y ys ih =>
    unfold insert_sorted_by
    by_cases h : le x y
    · rw [if_pos h]
    · rw [if_neg h]
      exact (List.Perm.cons y ih).trans (List.Perm.swap x y ys)

lemma sort_by_perm {α : Type} (le : α → α → Bool) (l : List α) :
    (sort_by le l).Perm l := by
  induction l with
  | nil => exact List.Perm.refl _
  | cons a rest ih =>
    unfold sort_by at ih ⊢
    rw [List.foldr_cons]
    exact (insert_sorted_by_perm le a _).trans (List.Perm.cons a ih)

lemma dropLast_append_getLastD {α : Type} (l : List α) (h : ¬l = []) (d : α) :
    l.dropLast ++ [l.getLastD d] = l := by
  have h1 : l.getLastD d = l.getLast h := by
    rw [List.getLastD_eq_getLast?, List.getLast?_eq_getLast l h]
    rfl
  rw [h1]
  exact List.dropLast_append_getLast h

/-- C8: substring-sieve postcondition.  For a non-empty list of input sets, no
output element of `common_string_sieve` is a proper substring of another
output element, and every output element occurs as a substring of at least one
string in every input set. -/
theorem c8_sieve_postcondition (sets : List (List Str)) (hne : ¬sets = []) :
    (∀ a ∈ common_string_sieve sets,
      ¬∃ b ∈ common_string_sieve sets, b ≠ a ∧ a <:+: b)
    ∧ ∀ w ∈ common_string_sieve sets, ∀ S ∈ sets, ∃ s ∈ S, w <:+: s := by
  have heq : common_string_sieve sets
      = (common_string_sieve_loop
          (sort_by (fun a b : List Str => decide (a.length ≤ b.length)) sets).dropLast
          ((sort_by (fun a b : List Str => decide (a.length ≤ b.length)) sets).getLastD
            [])).filter
          (fun item =>
            !((common_string_sieve_loop
              (sort_by (fun a b : List Str => decide (a.length ≤ b.length)) sets).dropLast
              ((sort_by (fun a b : List Str => decide (a.length ≤ b.length)) sets).getLastD
                [])).any
              fun other => decide (other ≠ item) && (find_slice other item).isSome)) := by
    unfold common_string_sieve
    rw [if_neg hne]
  set sorted := sort_by (fun a b : List Str => decide (a.length ≤ b.length)) sets
    with hsorted_def
  set res := common_string_sieve_loop sorted.dropLast (sorted.getLastD []) with hres_def
  have hperm : sorted.Perm sets := hsorted_def ▸ sort_by_perm _ sets
  have hsne : ¬sorted = [] := by
    intro h0
    rw [h0] at hperm
    exact hne (hperm.symm.eq_nil)
  have hsplit : sorted.dropLast ++ [sorted.getLastD []] = sorted :=
    dropLast_append_getLastD sorted hsne []
  have hinv := common_string_sieve_loop_invariant sorted.dropLast
    (fun w => ∃ s ∈ sorted.getLastD [], w <:+: s)
    (fun m v hmv hv => by
      rcases hv with ⟨s, hs, hvs⟩
      exact ⟨s, hs, hmv.trans hvs⟩)
    (sorted.getLastD []) (fun w hw => ⟨w, hw, List.infix_rfl⟩)
  constructor
  · intro a ha hcontra
    rcases hcontra with ⟨b, hb, hba, hab⟩
    rw [heq] at ha hb
    have hb_res : b ∈ res := List.mem_of_mem_filter hb
    have hpred := (List.mem_filter.mp ha).2
    have hany : res.any (fun other => decide (other ≠ a) && (find_slice other a).isSome)
        = false := by
      rcases Bool.eq_false_or_eq_true
        (res.any fun other => decide (other ≠ a) && (find_slice other a).isSome) with h | h
      · rw [h] at hpred
        simp at hpred
      · exact h
    have hfb : (decide (b ≠ a) && (find_slice b a).isSome) = true := by
      rw [Bool.and_eq_true]
      exact ⟨by simpa using hba, infix_find_slice_isSome b a hab⟩
    have : res.any (fun other => decide (other ≠ a) && (find_slice other a).isSome)
        = true := List.any_eq_true.mpr ⟨b, hb_res, hfb⟩
    rw [hany] at this
    exact Bool.false_ne_true this
  · intro w hw S hS
    rw [heq] at hw
    have hw_res : w ∈ res := List.mem_of_mem_filter hw
    have hres := hinv w hw_res
    have hS' : S ∈ sorted := hperm.mem_iff.mpr hS
    rw [← hsplit] at hS'
    rcases List.mem_append.mp hS' with hS'' | hS''
    · exact hres.2 S hS''
    · rcases List.mem_singleton.mp hS'' with rfl
      exact hres.1

/-- Witness for C8 at a concrete input: sieving `[["HELLO1"], ["2HELLO"]]`
yields `"HELLO"`, which is a substring of the sole string of the first set. -/
theorem c8_sieve_postcondition_witness :
    ¬c8_sets = []
    ∧ ['H', 'E', 'L', 'L', 'O'] ∈ common_string_sieve c8_sets
    ∧ ∃ s ∈ [['H', 'E', 'L', 'L', 'O', '1']], ['H', 'E', 'L', 'L', 'O'] <:+: s :=
  ⟨by decide, by decide,
    (c8_sieve_postcondition c8_sets (by decide)).2 ['H', 'E', 'L', 'L', 'O'] (by decide)
      [['H', 'E', 'L', 'L', 'O', '1']] (by decide)⟩
